import Mathlib

/-!
Verification of the rlispy tokenizer and reader (src/src/lexer.rs,
src/src/lexer/token.rs, src/src/parser.rs).

Shallow embedding conventions:
* Rust `String` / `&str` text is modelled as `List Char` (Rust strings are
  sequences of Unicode scalar values; `push` becomes appending a character).
* Fallible functions returning `Result<_, String>` become `Except String _`.
  Error messages keep the Rust format strings, with the `Position` fragment
  (`at {line}:{column}`) elided, since the pure model does not track positions.
* A Rust `panic!` (from `.unwrap()`) is modelled by `Option`: `none` is a
  panic, `some r` is a normal return of `r`.
* The iterator-based lexing helpers (`Peekable<Chars>`) become functions from
  the remaining character list to a result plus the unconsumed remainder; a
  peeked-but-unconsumed character stays at the head of the remainder.
* `f64` values are modelled by their source text: no claim depends on
  floating-point arithmetic, only on which texts lex successfully.
-/

namespace Rlispy

/-- Characters allowed in keywords (`KEYWORD_CHARS` in src/src/lexer.rs). -/
def KEYWORD_CHARS : List Char := ("abcdefghijklmnopqrstuvwxyz0123456789-".toList)

/-- Characters allowed in symbols (`SYMBOL_CHARS` in src/src/lexer.rs). -/
def SYMBOL_CHARS : List Char :=
  ("abcdefghijklmnopqrstuvwxyzABCDEFGHIJKLMNOPQRSTUVWXYZ0123456789_-+*/|<>=!?@#$%".toList)

/-- Characters escapable in strings (`ESCAPABLE_CHARS` in src/src/lexer.rs). -/
def ESCAPABLE_CHARS : List Char := ("\"ntr\\".toList)

/-- Characters that indicate the end of a token (`TK_END_CHARS`, the
string literal spelled out as its characters). -/
def TK_END_CHARS : List Char :=
  [' ', '\n', '\t', '\r', '(', ')', '{', '}', '[', ']', '"', ';', ',']

/-- Rust `KEYWORD_CHARS.contains(c)`. -/
def keywordChar (c : Char) : Bool := KEYWORD_CHARS.contains c

/-- Rust `SYMBOL_CHARS.contains(c)`. -/
def symbolChar (c : Char) : Bool := SYMBOL_CHARS.contains c

/-- Rust `ESCAPABLE_CHARS.contains(c)`. -/
def escapableChar (c : Char) : Bool := ESCAPABLE_CHARS.contains c

/-- Rust `TK_END_CHARS.contains(c)`. -/
def tkEndChar (c : Char) : Bool := TK_END_CHARS.contains c

/-- `Symbol` from src/src/lexer.rs usage (`Symbol { head, tail }`):
a dotted identifier path, `head` the first segment, `tail` the rest. -/
structure Symbol where
  head : List Char
  tail : List (List Char)
deriving DecidableEq, Repr

/-- `Token` from src/src/lexer/token.rs. The `Float` payload carries the
numeric source text (see module conventions). -/
inductive Token where
  | Integer (i : Int)
  | Float (text : List Char)
  | String (s : List Char)
  | Char (c : Char)
  | Symbol (s : Symbol)
  | Keyword (k : List Char)
  | Open (c : Char)
  | Close (c : Char)
deriving DecidableEq, Repr

/-- Loop body of `Lexer::lex_string` (src/src/lexer.rs lines 166-186), over
the characters after the opening quote.  `acc` is the `string` accumulator.
Note the source pushes the escaped character `c` itself (`string.push(c)`),
it does not translate `n`/`t`/`r` to control characters. -/
def lexStringLoop (acc : List Char) : List Char → Except String (Token × List Char)
  | [] => .error ("Unexpected end of input, expected `\"`")
  | '\\' :: rest =>
    match rest with
    | [] => .error ("Unexpected end of input, expected `n`, `t`, `r`, `\\` or `\"`")
    | c :: rest' =>
      if escapableChar c then lexStringLoop (acc ++ [c]) rest'
      else .error ("Unexpected escape character: " ++ c.toString)
  | '"' :: rest => .ok (.String acc, rest)
  | c :: rest => lexStringLoop (acc ++ [c]) rest

/-- `Lexer::lex_string`, entered with the lexer positioned on the opening
quote; the argument is the character stream after that quote. -/
def lexString (source : List Char) : Except String (Token × List Char) :=
  lexStringLoop [] source

/-- Loop body of `Lexer::lex_keyword` (src/src/lexer.rs lines 190-215), over
the characters after the leading `:`.  On a token-end character the lexer
stops with that character still current (head of the remainder). -/
def lexKeywordLoop (acc : List Char) : List Char → Except String (Token × List Char)
  | [] =>
    if acc = [] then .error ("Empty keyword")
    else .ok (.Keyword acc, [])
  | c :: rest =>
    if keywordChar c then lexKeywordLoop (acc ++ [c]) rest
    else if tkEndChar c then
      if acc = [] then .error ("Empty keyword")
      else .ok (.Keyword acc, c :: rest)
    else
      .error ("Unexpected character: " ++ c.toString ++
        " while parsing the keyword `:" ++ acc.asString ++ "`")

/-- `Lexer::lex_keyword`, entered with the lexer positioned on `:`; the
argument is the character stream after the `:`. -/
def lexKeyword (source : List Char) : Except String (Token × List Char) :=
  lexKeywordLoop [] source

/-- Loop of `lex_symbol` (src/src/lexer.rs lines 218-247).  `parts` and
`current` are the accumulators; the argument is the unconsumed source.  A
non-symbol, non-dot character (or end of input) ends the symbol without being
consumed. -/
def lexSymbolLoop (parts : List (List Char)) (current : List Char) :
    List Char → Except String (List (List Char) × List Char)
  | [] =>
    if current = [] then .error ("A symbol can't end with a `.`")
    else .ok (parts ++ [current], [])
  | c :: rest =>
    if symbolChar c then lexSymbolLoop parts (current ++ [c]) rest
    else if c = '.' then lexSymbolLoop (parts ++ [current]) [] rest
    else if current = [] then .error ("A symbol can't end with a `.`")
    else .ok (parts ++ [current], c :: rest)

/-- `lex_symbol(source, first)`: `first` is the already-consumed first
character, `source` the rest of the stream.  `parts.remove(0)` becomes the
head of the returned parts (always nonempty, see `lexSymbolLoop_ok_ne_nil`). -/
def lexSymbol (first : Char) (source : List Char) : Except String (Symbol × List Char) :=
  match lexSymbolLoop [] [first] source with
  | .error e => .error e
  | .ok (parts, rest) => .ok ({ head := parts.headD [], tail := parts.tail }, rest)

/-- Rust `char::is_numeric`, restricted to ASCII decimal digits.  The Rust
predicate also accepts other Unicode numeric scalars; those only enlarge the
set of texts reaching the (panicking) `parse().unwrap()` calls, so the
restriction is harmless for every claim below. -/
def isNumericChar (c : Char) : Bool := c.isDigit

/-- Accumulation loop of `lex_number` (src/src/lexer.rs lines 252-264):
greedily consume digits and dots; anything else ends the number unconsumed. -/
def lexNumberLoop (acc : List Char) : List Char → (List Char × List Char)
  | [] => (acc, [])
  | c :: rest =>
    if isNumericChar c then lexNumberLoop (acc ++ [c]) rest
    else if c = '.' then lexNumberLoop (acc ++ ['.']) rest
    else (acc, c :: rest)

/-- Value of a nonempty all-digit run, `none` otherwise: the digit part of
Rust `i64::from_str`. -/
def digitsVal : List Char → Option Nat
  | [] => none
  | ds =>
    if ds.all (fun c => c.isDigit) then
      some (ds.foldl (fun n c => n * 10 + (c.toNat - '0'.toNat)) 0)
    else none

/-- Rust `str::parse::<i64>`: optional sign, at least one digit, value within
the `i64` range; `none` is a parse error. -/
def rustParseI64 : List Char → Option Int
  | '+' :: rest => (digitsVal rest).bind fun v =>
      if v ≤ 2 ^ 63 - 1 then some (v : Int) else none
  | '-' :: rest => (digitsVal rest).bind fun v =>
      if v ≤ 2 ^ 63 then some (-(v : Int)) else none
  | cs => (digitsVal cs).bind fun v =>
      if v ≤ 2 ^ 63 - 1 then some (v : Int) else none

/-- Success of Rust `str::parse::<f64>` on the texts `lex_number` can build
(an optional leading sign, then digits and dots): it succeeds exactly when at
least one digit is present and at most one dot. -/
def rustParseF64Ok (cs : List Char) : Bool :=
  let body := match cs with
    | '+' :: rest => rest
    | '-' :: rest => rest
    | _ => cs
  body.any (fun c => c.isDigit) &&
    body.all (fun c => c.isDigit || c = '.') && body.count '.' ≤ 1

/-- `lex_number(source, first)` (src/src/lexer.rs lines 249-277).  The outer
`Option` models panics: the source calls `number.parse().unwrap()`, so a text
that fails host parsing panics (`none`) instead of returning `Err`. -/
def lexNumber (first : Char) (source : List Char) : Option (Except String (Token × List Char)) :=
  let (number, rest) := lexNumberLoop [first] source
  if 1 < number.count '.' then
    some (.error ("Invalid number: " ++ number.asString))
  else if number.contains '.' then
    if rustParseF64Ok number then some (.ok (.Float number, rest)) else none
  else
    match rustParseI64 number with
    | some i => some (.ok (.Integer i, rest))
    | none => none

/-- UTF-8 byte length of a text: Rust `str::len`. -/
def utf8Len (cs : List Char) : Nat := (cs.map Char.utf8Size).sum

/-- Accumulation loop of `lex_char` (src/src/lexer.rs lines 282-288): consume
characters until a space (which is consumed and discarded) or end of input. -/
def lexCharLoop : List Char → (List Char × List Char)
  | [] => ([], [])
  | c :: rest =>
    if c = ' ' then ([], rest)
    else
      let (a, r) := lexCharLoop rest
      (c :: a, r)

/-- `lex_char(source)` (src/src/lexer.rs lines 279-300), over the characters
after the leading `\`.  Note the single-character test is Rust `c.len() == 1`,
a BYTE length check: only one-byte (ASCII) scalars pass it. -/
def lexChar (source : List Char) : Except String (Token × List Char) :=
  let (ch, rest) := lexCharLoop source
  if ch = ("newline".toList) then .ok (.Char '\n', rest)
  else if ch = ("return".toList) then .ok (.Char '\r', rest)
  else if ch = ("tab".toList) then .ok (.Char '\t', rest)
  else if ch = ("space".toList) then .ok (.Char ' ', rest)
  else if utf8Len ch = 1 then .ok (.Char (ch.headD ' '), rest)
  else .error ("Invalid character: " ++ ch.asString)

/-- Comment arm of `Lexer::lex` (src/src/lexer.rs lines 137-143), over the
characters after the `;`: `while let Some(c) = self.advance() { if c == '\n'
{ self.advance(); } }`.  The loop has no `break`, so it consumes every
remaining character; on a newline it additionally skips the next one. -/
def skipComment : List Char → List Char
  | [] => []
  | '\n' :: [] => []
  | '\n' :: _ :: rest => skipComment rest
  | _ :: rest => skipComment rest

/-- Modelled from the spec (section 4.1 rule 6), which is what the claim
describes: a `;` comment discards exactly the characters up to and including
the next newline (or everything, if no newline follows), and lexing resumes
on what remains. -/
def skipCommentSpec (cs : List Char) : List Char :=
  (cs.dropWhile (fun c => c ≠ '\n')).drop 1

/-- `Form` from src/src/parser.rs. -/
inductive Form where
  | Call (forms : List Form)
  | Symbol (s : Symbol)
  | Float (text : List Char)
  | Integer (i : Int)
  | String (s : List Char)
  | Char (c : Char)
  | Keyword (k : List Char)
  | List (forms : List Form)
  | Map (pairs : List (Form × Form))
deriving Repr

/-- Rust derived `Debug` rendering of a `Symbol`, used by the
`format!("Unexpected token: {:?}", token)` error message. -/
def symbolDebug (s : Symbol) : String :=
  let segs := (s.tail.map fun t => "\"" ++ t.asString ++ "\"")
  "Symbol \x7b head: \"" ++ s.head.asString ++ "\", tail: [" ++
    String.intercalate (", ") segs ++ "] \x7d"

/-- Rust derived `Debug` rendering of a `Token` (best-effort model; only the
constructor-name shape matters to any claim). -/
def tokenDebug : Token → String
  | .Integer i => "Integer(" ++ toString i ++ ")"
  | .Float t => "Float(" ++ t.asString ++ ")"
  | .String s => "String(\"" ++ s.asString ++ "\")"
  | .Char c => "Char(" ++ "\x27" ++ c.toString ++ "\x27)"
  | .Symbol s => "Symbol(" ++ symbolDebug s ++ ")"
  | .Keyword k => "Keyword(\"" ++ k.asString ++ "\")"
  | .Open c => "Open(" ++ "\x27" ++ c.toString ++ "\x27)"
  | .Close c => "Close(" ++ "\x27" ++ c.toString ++ "\x27)"

/-- Result type of the reader: one form plus the unconsumed tokens. -/
abbrev PResult := Except String (Form × List Token)

/-- `parse_call` (src/src/parser.rs lines 47-67).  `p` is the `parse`
function it re-enters (tied at `parseF` below), `forms` the accumulator.
The loop peeks: a peeked-but-unconsumed token stays in the list passed to
`p`.  The `fuel` argument only bounds the loop so the recursion is
structural; the loop itself never consumes fuel in the source. -/
def parseCallF (p : List Token → Option PResult) : Nat → List Form → List Token → Option PResult
  | 0, _, _ => none
  | _ + 1, _, [] => some (.error ("Unexpected end of input"))
  | n + 1, forms, t :: rest =>
    match t with
    | .Close c =>
      if c = ')' then some (.ok (.Call forms, rest))
      else some (.error ("Unexpected token: `" ++ c.toString ++ "`, expected `)`"))
    | _ =>
      match p (t :: rest) with
      | none => none
      | some (.error e) => some (.error e)
      | some (.ok (f, ts)) => parseCallF p n (forms ++ [f]) ts

/-- `parse_list` (src/src/parser.rs lines 69-89): same loop as `parse_call`
with `]` and `Form::List`. -/
def parseListF (p : List Token → Option PResult) : Nat → List Form → List Token → Option PResult
  | 0, _, _ => none
  | _ + 1, _, [] => some (.error ("Unexpected end of input"))
  | n + 1, forms, t :: rest =>
    match t with
    | .Close c =>
      if c = ']' then some (.ok (.List forms, rest))
      else some (.error ("Unexpected token: `" ++ c.toString ++ "`, expected `]`"))
    | _ =>
      match p (t :: rest) with
      | none => none
      | some (.error e) => some (.error e)
      | some (.ok (f, ts)) => parseListF p n (forms ++ [f]) ts

/-- `parse_map` (src/src/parser.rs lines 91-112): each iteration reads a key
form and then a value form via `parse`. -/
def parseMapF (p : List Token → Option PResult) : Nat → List (Form × Form) → List Token → Option PResult
  | 0, _, _ => none
  | _ + 1, _, [] => some (.error ("Unexpected end of input"))
  | n + 1, pairs, t :: rest =>
    match t with
    | .Close c =>
      if c = '}' then some (.ok (.Map pairs, rest))
      else some (.error ("Unexpected token: `" ++ c.toString ++ "`, expected `\x7d`"))
    | _ =>
      match p (t :: rest) with
      | none => none
      | some (.error e) => some (.error e)
      | some (.ok (key, ts)) =>
        match p ts with
        | none => none
        | some (.error e) => some (.error e)
        | some (.ok (value, ts')) => parseMapF p n (pairs ++ [(key, value)]) ts'

/-- `parse` (src/src/parser.rs lines 18-45), with a fuel bound making the
mutual recursion with the three loops structural.  `none` means the fuel ran
out; the top-level entry `parse` supplies enough fuel that this never
happens on any input (each nesting level and each loop iteration consumes at
least one token, see `parseF_progress`). -/
def parseF : Nat → List Token → Option PResult
  | 0, _ => none
  | _ + 1, [] => some (.error ("Unexpected end of input"))
  | n + 1, t :: rest =>
    match t with
    | .Open c =>
      if c = '(' then parseCallF (fun ts => parseF n ts) n [] rest
      else if c = '[' then parseListF (fun ts => parseF n ts) n [] rest
      else if c = '{' then parseMapF (fun ts => parseF n ts) n [] rest
      else some (.error ("Unexpected token: " ++ tokenDebug (.Open c)))
    | .Integer i => some (.ok (.Integer i, rest))
    | .Float f => some (.ok (.Float f, rest))
    | .String s => some (.ok (.String s, rest))
    | .Char c => some (.ok (.Char c, rest))
    | .Symbol s => some (.ok (.Symbol s, rest))
    | .Keyword k => some (.ok (.Keyword k, rest))
    | .Close c => some (.error ("Unexpected token: " ++ tokenDebug (.Close c)))

/-- The reader's entry point, `parse` in src/src/parser.rs: fuel
`2 * tokens.length + 1` is always sufficient. -/
def parse (tokens : List Token) : PResult :=
  match parseF (2 * tokens.length + 1) tokens with
  | some r => r
  | none => .error ("out of fuel")

/-- Leaf tokens: the six `parse` arms that wrap a token payload directly
into a `Form` (src/src/parser.rs lines 35-40). -/
def isLeafTok : Token → Bool
  | .Integer _ => true
  | .Float _ => true
  | .String _ => true
  | .Char _ => true
  | .Symbol _ => true
  | .Keyword _ => true
  | .Open _ => false
  | .Close _ => false

/-- The leaf `Form` a leaf token wraps into; junk (`Integer 0`) on the
bracket tokens, which are always guarded by `isLeafTok`. -/
def leafForm : Token → Form
  | .Integer i => .Integer i
  | .Float f => .Float f
  | .String s => .String s
  | .Char c => .Char c
  | .Symbol s => .Symbol s
  | .Keyword k => .Keyword k
  | .Open _ => .Integer 0
  | .Close _ => .Integer 0

/-- Flatten a list of key/value token pairs into the token stream a braced
map literal produces between its brackets. -/
def pairTokens : List (Token × Token) → List Token
  | [] => []
  | (k, v) :: ps => k :: v :: pairTokens ps

/-! ## Helper lemmas about the symbol lexer -/

/-- Whenever `lex_symbol`'s loop returns, the returned parts list is nonempty
and its final segment is nonempty (the `current.is_empty()` guard fires on an
empty final segment). -/
theorem lexSymbolLoop_last (src : List Char) : ∀ parts current ps rest,
    lexSymbolLoop parts current src = .ok (ps, rest) →
    ps ≠ [] ∧ ps.getLastD [] ≠ [] := by
  induction src with
  | nil =>
    intro parts current ps rest h
    simp only [lexSymbolLoop] at h
    split at h
    · exact absurd h (by simp)
    · rename_i hcur
      obtain ⟨h1, h2⟩ : parts ++ [current] = ps ∧ ([] : List Char) = rest := by
        simpa using h
      subst h1
      simp [hcur]
  | cons c rest ih =>
    intro parts current ps rest' h
    simp only [lexSymbolLoop] at h
    split at h
    · exact ih _ _ _ _ h
    · split at h
      · exact ih _ _ _ _ h
      · split at h
        · exact absurd h (by simp)
        · rename_i hsym hdot hcur
          obtain ⟨h1, h2⟩ : parts ++ [current] = ps ∧ c :: rest = rest' := by
            simpa using h
          subst h1
          simp [hcur]

/-- Whenever `lex_symbol`'s loop returns, the head of the returned parts list
extends the head of `parts ++ [current]` (so the first segment keeps at least
the characters it entered the loop with). -/
theorem lexSymbolLoop_head (src : List Char) : ∀ parts current ps rest,
    lexSymbolLoop parts current src = .ok (ps, rest) →
    ∃ ext, ps.headD [] = (parts ++ [current]).headD [] ++ ext := by
  induction src with
  | nil =>
    intro parts current ps rest h
    simp only [lexSymbolLoop] at h
    split at h
    · exact absurd h (by simp)
    · obtain ⟨h1, h2⟩ : parts ++ [current] = ps ∧ ([] : List Char) = rest := by
        simpa using h
      subst h1
      exact ⟨[], by simp⟩
  | cons c rest ih =>
    intro parts current ps rest' h
    simp only [lexSymbolLoop] at h
    split at h
    · obtain ⟨ext, hext⟩ := ih _ _ _ _ h
      cases parts with
      | nil => exact ⟨[c] ++ ext, by simpa using hext⟩
      | cons p parts' => exact ⟨ext, by simpa using hext⟩
    · split at h
      · obtain ⟨ext, hext⟩ := ih _ _ _ _ h
        cases parts with
        | nil => exact ⟨ext, by simpa using hext⟩
        | cons p parts' => exact ⟨ext, by simpa using hext⟩
      · split at h
        · exact absurd h (by simp)
        · obtain ⟨h1, h2⟩ : parts ++ [current] = ps ∧ c :: rest = rest' := by
            simpa using h
          subst h1
          exact ⟨[], by simp⟩

/-! ## Claim C1 -/

/-- C1, counterexample: the symbol lexer does not reject two consecutive
dots.  Lexing `foo..bar` (first character `f` already consumed) succeeds and
returns a `Symbol` whose tail contains the empty segment, contradicting the
claim that such input is a lexical error and that a `Symbol`'s tail never
holds an empty segment. -/
theorem C1_counterexample :
    lexSymbol 'f' ("oo..bar".toList) =
      .ok ({ head := "foo".toList, tail := [[], "bar".toList] }, []) ∧
    ([] : List Char) ∈ [([] : List Char), "bar".toList] := by
  constructor
  · rfl
  · simp

/-- C1, amended: an accepted symbol's head and final segment are never empty
— a trailing `.` (empty final segment, e.g. `foo.`) is a lexical error — but
interior empty segments produced by doubled dots (e.g. `foo..bar`) are kept
in the tail. -/
theorem C1_amended (first : Char) (source : List Char) (sym : Symbol)
    (rest : List Char) (h : lexSymbol first source = .ok (sym, rest)) :
    sym.head ≠ [] ∧ (sym.head :: sym.tail).getLastD [] ≠ [] := by
  unfold lexSymbol at h
  cases hq : lexSymbolLoop [] [first] source with
  | error e => rw [hq] at h; exact absurd h (by simp)
  | ok pr =>
    obtain ⟨ps, rest'⟩ := pr
    rw [hq] at h
    obtain ⟨hsym, hrest⟩ : ({ head := ps.headD [], tail := ps.tail } : Symbol) = sym ∧
        rest' = rest := by simpa using h
    subst hsym
    obtain ⟨hne, hlast⟩ := lexSymbolLoop_last source [] [first] ps rest' hq
    obtain ⟨ext, hext⟩ := lexSymbolLoop_head source [] [first] ps rest' hq
    constructor
    · simp only [hext]
      simp
    · cases ps with
      | nil => exact absurd rfl hne
      | cons x xs => simpa using hlast

/-- C1, witness: the amended theorem applied to the dotted symbol `foo.bar`
(first character `f` consumed, remaining source `oo.bar`). -/
theorem C1_witness :
    ("foo".toList ≠ []) ∧
    ((("foo".toList) :: [("bar".toList)]).getLastD [] ≠ []) :=
  C1_amended 'f' ("oo.bar".toList)
    { head := "foo".toList, tail := ["bar".toList] } [] rfl

/-! ## Claim C2 -/

/-- C2, counterexample: the string lexer validates but does not translate
escapes.  Lexing the literal `"a\nb"` (characters after the opening quote)
yields the text `anb` — the letter `n`, not a newline — contradicting the
claim that the token contains an actual newline between `a` and `b`. -/
theorem C2_counterexample :
    lexString ("a\\nb\"".toList) = .ok (.String ("anb".toList), []) ∧
    '\n' ∉ ("anb".toList) := by
  constructor
  · rfl
  · simp

/-- C2, amended: escape sequences are validated during tokenization — after
`\` only `"`, `n`, `t`, `r`, `\` are legal and anything else is a lexical
error — but the escaped character itself is appended to the token text.  So
`\"` and `\\` produce the quote and backslash, while `\n`, `\t`, `\r`
produce the letters `n`, `t`, `r`; lexing `"a\nb"` yields the 3-character
text `anb` and lexing `"a\qb"` is a lexical error. -/
theorem C2_amended :
    lexString ("a\\nb\"".toList) = .ok (.String ("anb".toList), []) ∧
    lexString ("a\\tb\"".toList) = .ok (.String ("atb".toList), []) ∧
    lexString ("a\\rb\"".toList) = .ok (.String ("arb".toList), []) ∧
    lexString ("a\\\"b\"".toList) = .ok (.String ("a\"b".toList), []) ∧
    lexString ("a\\\\b\"".toList) = .ok (.String ("a\\b".toList), []) ∧
    lexString ("a\\qb\"".toList) = .error ("Unexpected escape character: q") := by
  refine ⟨rfl, rfl, rfl, rfl, rfl, rfl⟩

/-! ## Claim C3 -/

/-- C3: the number lexer panics on the malformed text consisting of a lone
`-`: the accumulated text obeys the one-dot rule, so it reaches
`number.parse::<i64>().unwrap()`, and the parse failure makes the `unwrap`
panic (`none` in the model) instead of returning a lexical error. -/
theorem C3_lone_minus_panics : lexNumber '-' [] = none := rfl

/-! ## Claim C4 -/

/-- C4: on the comment body `x\n1` (the characters after `;`), the comment
arm of `Lexer::lex` discards everything — its loop has no `break`, so it
consumes to end of input — whereas the claimed behaviour (discard exactly
through the newline) would leave `1` to be tokenized. -/
theorem C4_comment_discards_rest_of_input :
    skipComment ("x\n1".toList) = [] ∧
    skipCommentSpec ("x\n1".toList) = "1".toList ∧
    skipComment ("x\n1".toList) ≠ skipCommentSpec ("x\n1".toList) := by
  refine ⟨rfl, rfl, by decide⟩

/-! ## Claim C5 -/

/-- C5, counterexample: a character literal holding the single Unicode
scalar `é` (two UTF-8 bytes) is rejected: the source tests `c.len() == 1`, a
byte-length check, so the claim that a one-scalar accumulation always yields
a `Char` token fails on any non-ASCII scalar. -/
theorem C5_counterexample :
    lexChar ("é".toList) = .error ("Invalid character: é") ∧
    lexChar ("é".toList) ≠ .ok (.Char 'é', []) := by
  refine ⟨rfl, ?_⟩
  intro hcontra
  rw [show lexChar ("é".toList) = .error ("Invalid character: é") from rfl] at hcontra
  exact Except.noConfusion hcontra

/-- C5, amended: the text accumulated after `\` up to a space (consumed) or
end of input resolves through the name table — `newline`→LF, `return`→CR,
`tab`→TAB, `space`→space — and otherwise yields a `Char` token only when it
is exactly one scalar value occupying a single UTF-8 byte (the source checks
the byte length); any other accumulation, including a single multi-byte
scalar, is a lexical error. -/
theorem C5_amended :
    (∀ (c : Char) (rest : List Char), c ≠ ' ' → c.utf8Size = 1 →
      lexChar (c :: ' ' :: rest) = .ok (.Char c, rest)) ∧
    (∀ (c : Char) (rest : List Char), c ≠ ' ' → 1 < c.utf8Size →
      lexChar (c :: ' ' :: rest) = .error ("Invalid character: " ++ c.toString)) ∧
    lexChar ("newline".toList) = .ok (.Char '\n', []) ∧
    lexChar ("return".toList) = .ok (.Char '\r', []) ∧
    lexChar ("tab".toList) = .ok (.Char '\t', []) ∧
    lexChar ("space".toList) = .ok (.Char ' ', []) ∧
    lexChar ("ab cd".toList) = .error ("Invalid character: ab") := by
  have hnames : ("newline".toList) = ['n', 'e', 'w', 'l', 'i', 'n', 'e'] ∧
      ("return".toList) = ['r', 'e', 't', 'u', 'r', 'n'] ∧
      ("tab".toList) = ['t', 'a', 'b'] ∧
      ("space".toList) = ['s', 'p', 'a', 'c', 'e'] := ⟨rfl, rfl, rfl, rfl⟩
  obtain ⟨hn, hr, ht, hs⟩ := hnames
  have hloop : ∀ (c : Char) (rest : List Char), c ≠ ' ' →
      lexCharLoop (c :: ' ' :: rest) = ([c], rest) := by
    intro c rest hc
    simp [lexCharLoop, hc]
  have hsingle : ∀ (c : Char), utf8Len [c] = c.utf8Size := by
    intro c
    simp [utf8Len]
  refine ⟨?_, ?_, rfl, rfl, rfl, rfl, rfl⟩
  · intro c rest hc h1
    simp only [lexChar, hloop c rest hc, hn, hr, ht, hs, hsingle, h1]
    simp
  · intro c rest hc h1
    have h1' : ¬ utf8Len [c] = 1 := by rw [hsingle]; omega
    have hjoin : ([c].asString) = c.toString := rfl
    simp only [lexChar, hloop c rest hc, hn, hr, ht, hs, h1', hjoin]
    simp

/-- C5, witness: the amended theorem applied to the ASCII literal `\a x`
and the name-table literal `\newline`. -/
theorem C5_witness :
    lexChar ('a' :: ' ' :: ("x".toList)) = .ok (.Char 'a', "x".toList) ∧
    lexChar ('é' :: ' ' :: []) = .error ("Invalid character: é") :=
  ⟨(C5_amended.1) 'a' ("x".toList) (by decide) (by decide),
   (C5_amended.2.1) 'é' [] (by decide) (by decide)⟩

/-! ## Claim C6 -/

/-- Keyword characters (lowercase letters, digits, `-`) and token-end
characters are disjoint alphabets. -/
theorem tkEnd_not_keywordChar (c : Char) (h : tkEndChar c = true) :
    keywordChar c = false := by
  have hm : c ∈ TK_END_CHARS := by
    simpa [tkEndChar] using h
  simp only [TK_END_CHARS] at hm
  fin_cases hm <;> rfl

/-- Run lemma for `lex_keyword`: a nonempty maximal run of keyword characters
is accepted and ends cleanly at a token-end character (left unconsumed) or at
end of input. -/
theorem lexKeywordLoop_run (run : List Char) : ∀ acc : List Char,
    (∀ x ∈ run, keywordChar x = true) → acc ++ run ≠ [] →
    (∀ (c : Char) (rest : List Char), tkEndChar c = true →
      lexKeywordLoop acc (run ++ c :: rest) = .ok (.Keyword (acc ++ run), c :: rest)) ∧
    lexKeywordLoop acc run = .ok (.Keyword (acc ++ run), []) := by
  induction run with
  | nil =>
    intro acc _ hne
    have hne' : acc ≠ [] := by simpa using hne
    refine ⟨?_, ?_⟩
    · intro c rest hc
      simp [lexKeywordLoop, tkEnd_not_keywordChar c hc, hc, hne']
    · simp [lexKeywordLoop, hne']
  | cons x run' ih =>
    intro acc hrun hne
    have hx : keywordChar x = true := hrun x (by simp)
    have hrun' : ∀ y ∈ run', keywordChar y = true := fun y hy => hrun y (by simp [hy])
    have hne' : (acc ++ [x]) ++ run' ≠ [] := by simp
    obtain ⟨h1, h2⟩ := ih (acc ++ [x]) hrun' hne'
    refine ⟨?_, ?_⟩
    · intro c rest hc
      have := h1 c rest hc
      simpa [lexKeywordLoop, hx] using this
    · have := h2
      simpa [lexKeywordLoop, hx] using this

/-- C6, counterexample: a keyword does not end cleanly at an arbitrary
character outside the keyword alphabet.  After the run `ab`, the character
`.` (outside both the keyword alphabet and the token-end set) makes
`lex_keyword` report a lexical error instead of returning `Keyword("ab")`. -/
theorem C6_counterexample :
    lexKeyword ("ab.".toList) =
      .error ("Unexpected character: . while parsing the keyword `:ab`") ∧
    lexKeyword ("ab.".toList) ≠ .ok (.Keyword ("ab".toList), ['.']) := by
  refine ⟨rfl, ?_⟩
  intro hcontra
  rw [show lexKeyword ("ab.".toList) =
    .error ("Unexpected character: . while parsing the keyword `:ab`") from rfl] at hcontra
  exact Except.noConfusion hcontra

/-- C6, amended: for every input where `:` is followed by one or more
characters from the keyword alphabet, the keyword lexer consumes exactly that
maximal run and returns a `Keyword` token containing it — but it ends without
error only when the terminating character is a token-end character
(whitespace, brackets, `"`, `;`, `,`), left unconsumed, or at end of input;
any other terminating character is a lexical error. -/
theorem C6_amended (run : List Char) (c : Char) (rest : List Char)
    (hne : run ≠ []) (hrun : ∀ x ∈ run, keywordChar x = true)
    (hc : tkEndChar c = true) :
    lexKeyword (run ++ c :: rest) = .ok (.Keyword run, c :: rest) ∧
    lexKeyword run = .ok (.Keyword run, []) := by
  obtain ⟨h1, h2⟩ := lexKeywordLoop_run run [] hrun (by simpa using hne)
  exact ⟨by simpa [lexKeyword] using h1 c rest hc, by simpa [lexKeyword] using h2⟩

/-- C6, witness: the amended theorem applied to `:ab` terminated by a space
(`:ab c`) and by end of input. -/
theorem C6_witness :
    lexKeyword ("ab c".toList) = .ok (.Keyword ("ab".toList), ' ' :: ("c".toList)) ∧
    lexKeyword ("ab".toList) = .ok (.Keyword ("ab".toList), []) :=
  C6_amended ("ab".toList) ' ' ("c".toList) (by decide) (by decide) (by decide)

/-! ## Helper lemmas about the reader -/

/-- Progress of the `parse_call` loop: if it returns a form, the remaining
tokens are a strictly shorter suffix of its input (assuming the `parse` it
re-enters has that property). -/
theorem parseCallF_progress (p : List Token → Option PResult)
    (hp : ∀ ts f ts', p ts = some (.ok (f, ts')) →
      ts' <:+ ts ∧ ts'.length < ts.length) :
    ∀ (n : Nat) (forms : List Form) (ts : List Token) (f : Form) (ts' : List Token),
      parseCallF p n forms ts = some (.ok (f, ts')) →
      ts' <:+ ts ∧ ts'.length < ts.length := by
  intro n
  induction n with
  | zero => intro forms ts f ts' h; exact absurd h (by simp [parseCallF])
  | succ n ih =>
    intro forms ts f ts' h
    cases ts with
    | nil => exact absurd h (by simp [parseCallF])
    | cons t rest =>
      simp only [parseCallF] at h
      split at h
      · split at h
        · obtain ⟨h1, h2⟩ : Form.Call forms = f ∧ rest = ts' := by simpa using h
          subst h2
          exact ⟨List.suffix_cons _ _, by simp⟩
        · exact absurd h (by simp)
      · rename_i t' hne
        cases hq : p (t :: rest) with
        | none => rw [hq] at h; exact absurd h (by simp)
        | some r =>
          rw [hq] at h
          cases r with
          | error e => exact absurd h (by simp)
          | ok pr =>
            obtain ⟨f₀, ts₁⟩ := pr
            simp only at h
            obtain ⟨hsub, hlen⟩ := hp (t :: rest) f₀ ts₁ hq
            obtain ⟨hsub', hlen'⟩ := ih (forms ++ [f₀]) ts₁ f ts' h
            exact ⟨hsub'.trans hsub, lt_trans hlen' hlen⟩

/-- Progress of the `parse_list` loop, as for `parse_call`. -/
theorem parseListF_progress (p : List Token → Option PResult)
    (hp : ∀ ts f ts', p ts = some (.ok (f, ts')) →
      ts' <:+ ts ∧ ts'.length < ts.length) :
    ∀ (n : Nat) (forms : List Form) (ts : List Token) (f : Form) (ts' : List Token),
      parseListF p n forms ts = some (.ok (f, ts')) →
      ts' <:+ ts ∧ ts'.length < ts.length := by
  intro n
  induction n with
  | zero => intro forms ts f ts' h; exact absurd h (by simp [parseListF])
  | succ n ih =>
    intro forms ts f ts' h
    cases ts with
    | nil => exact absurd h (by simp [parseListF])
    | cons t rest =>
      simp only [parseListF] at h
      split at h
      · split at h
        · obtain ⟨h1, h2⟩ : Form.List forms = f ∧ rest = ts' := by simpa using h
          subst h2
          exact ⟨List.suffix_cons _ _, by simp⟩
        · exact absurd h (by simp)
      · cases hq : p (t :: rest) with
        | none => rw [hq] at h; exact absurd h (by simp)
        | some r =>
          rw [hq] at h
          cases r with
          | error e => exact absurd h (by simp)
          | ok pr =>
            obtain ⟨f₀, ts₁⟩ := pr
            simp only at h
            obtain ⟨hsub, hlen⟩ := hp (t :: rest) f₀ ts₁ hq
            obtain ⟨hsub', hlen'⟩ := ih (forms ++ [f₀]) ts₁ f ts' h
            exact ⟨hsub'.trans hsub, lt_trans hlen' hlen⟩

/-- Progress of the `parse_map` loop: each iteration reads a key and a value,
both of which consume tokens. -/
theorem parseMapF_progress (p : List Token → Option PResult)
    (hp : ∀ ts f ts', p ts = some (.ok (f, ts')) →
      ts' <:+ ts ∧ ts'.length < ts.length) :
    ∀ (n : Nat) (pairs : List (Form × Form)) (ts : List Token) (f : Form) (ts' : List Token),
      parseMapF p n pairs ts = some (.ok (f, ts')) →
      ts' <:+ ts ∧ ts'.length < ts.length := by
  intro n
  induction n with
  | zero => intro pairs ts f ts' h; exact absurd h (by simp [parseMapF])
  | succ n ih =>
    intro pairs ts f ts' h
    cases ts with
    | nil => exact absurd h (by simp [parseMapF])
    | cons t rest =>
      simp only [parseMapF] at h
      split at h
      · split at h
        · obtain ⟨h1, h2⟩ : Form.Map pairs = f ∧ rest = ts' := by simpa using h
          subst h2
          exact ⟨List.suffix_cons _ _, by simp⟩
        · exact absurd h (by simp)
      · cases hq : p (t :: rest) with
        | none => rw [hq] at h; exact absurd h (by simp)
        | some r =>
          rw [hq] at h
          cases r with
          | error e => exact absurd h (by simp)
          | ok pr =>
            obtain ⟨key, ts₁⟩ := pr
            simp only at h
            cases hq₂ : p ts₁ with
            | none => rw [hq₂] at h; exact absurd h (by simp)
            | some r₂ =>
              rw [hq₂] at h
              cases r₂ with
              | error e => exact absurd h (by simp)
              | ok pr₂ =>
                obtain ⟨value, ts₂⟩ := pr₂
                simp only at h
                obtain ⟨hsub₁, hlen₁⟩ := hp (t :: rest) key ts₁ hq
                obtain ⟨hsub₂, hlen₂⟩ := hp ts₁ value ts₂ hq₂
                obtain ⟨hsub₃, hlen₃⟩ := ih (pairs ++ [(key, value)]) ts₂ f ts' h
                exact ⟨(hsub₃.trans hsub₂).trans hsub₁,
                  lt_trans (lt_trans hlen₃ hlen₂) hlen₁⟩

/-- Progress of `parse` itself, at every fuel: a successful read always
consumes at least one token, and the remainder is a suffix of the input. -/
theorem parseF_progress :
    ∀ (n : Nat) (ts : List Token) (f : Form) (ts' : List Token),
      parseF n ts = some (.ok (f, ts')) → ts' <:+ ts ∧ ts'.length < ts.length := by
  intro n
  induction n with
  | zero => intro ts f ts' h; exact absurd h (by simp [parseF])
  | succ n ih =>
    intro ts f ts' h
    cases ts with
    | nil => exact absurd h (by simp [parseF])
    | cons t rest =>
      have widen : ∀ (pr : ts' <:+ rest ∧ ts'.length < rest.length),
          ts' <:+ t :: rest ∧ ts'.length < (t :: rest).length :=
        fun pr => ⟨pr.1.trans (List.suffix_cons _ _), lt_trans pr.2 (by simp)⟩
      have hleaf : ∀ (h' : rest = ts'), ts' <:+ t :: rest ∧ ts'.length < (t :: rest).length := by
        intro h'
        subst h'
        exact ⟨List.suffix_cons _ _, by simp⟩
      simp only [parseF] at h
      cases t with
      | Open c =>
        by_cases h1 : c = '('
        · simp only [h1, if_pos rfl] at h
          exact widen (parseCallF_progress _ ih n [] rest f ts' (by simpa using h))
        · by_cases h2 : c = '['
          · simp only [h1, h2, if_neg, if_pos rfl, reduceIte] at h
            exact widen (parseListF_progress _ ih n [] rest f ts' (by simpa [h1] using h))
          · by_cases h3 : c = '{'
            · simp only [h1, h2, h3] at h
              exact widen (parseMapF_progress _ ih n [] rest f ts' (by simpa [h1, h2] using h))
            · simp only [h1, h2, h3] at h
              exact absurd h (by simp [h1, h2, h3])
      | Integer i =>
        obtain ⟨h1, h2⟩ : Form.Integer i = f ∧ rest = ts' := by simpa using h
        exact hleaf h2
      | Float fl =>
        obtain ⟨h1, h2⟩ : Form.Float fl = f ∧ rest = ts' := by simpa using h
        exact hleaf h2
      | String s =>
        obtain ⟨h1, h2⟩ : Form.String s = f ∧ rest = ts' := by simpa using h
        exact hleaf h2
      | Char c =>
        obtain ⟨h1, h2⟩ : Form.Char c = f ∧ rest = ts' := by simpa using h
        exact hleaf h2
      | Symbol s =>
        obtain ⟨h1, h2⟩ : Form.Symbol s = f ∧ rest = ts' := by simpa using h
        exact hleaf h2
      | Keyword k =>
        obtain ⟨h1, h2⟩ : Form.Keyword k = f ∧ rest = ts' := by simpa using h
        exact hleaf h2
      | Close c => exact absurd h (by simp)

/-- Reading a leaf token wraps it directly into the matching leaf form,
consuming exactly that token (at any positive fuel). -/
theorem parseF_leaf (n : Nat) (t : Token) (rest : List Token)
    (h : isLeafTok t = true) :
    parseF (n + 1) (t :: rest) = some (.ok (leafForm t, rest)) := by
  cases t <;> simp_all [isLeafTok, parseF, leafForm]

theorem pairTokens_length (ps : List (Token × Token)) :
    (pairTokens ps).length = 2 * ps.length := by
  induction ps with
  | nil => rfl
  | cons q ps ih =>
    obtain ⟨k, v⟩ := q
    simp [pairTokens, ih]
    omega

/-- Run lemma for the `parse_map` loop on a braced sequence of leaf-token
key/value pairs: every pair is read in order and appended to the
accumulator, and the closing `}` ends the map.  Fuel `ps.length + 1`
suffices because each iteration consumes one fuel unit. -/
theorem parseMapF_leaf_run (p : List Token → Option PResult)
    (hp : ∀ t ts, isLeafTok t = true → p (t :: ts) = some (.ok (leafForm t, ts))) :
    ∀ (ps : List (Token × Token)) (n : Nat) (pairs : List (Form × Form)),
      (∀ q ∈ ps, isLeafTok q.1 = true ∧ isLeafTok q.2 = true) →
      ps.length + 1 ≤ n →
      parseMapF p n pairs (pairTokens ps ++ [.Close '}']) =
        some (.ok (.Map (pairs ++ ps.map fun q => (leafForm q.1, leafForm q.2)), [])) := by
  intro ps
  induction ps with
  | nil =>
    intro n pairs _ hn
    obtain ⟨m, rfl⟩ : ∃ m, n = m + 1 := ⟨n - 1, by omega⟩
    simp [pairTokens, parseMapF]
  | cons q ps' ih =>
    intro n pairs hps hn
    obtain ⟨k, v⟩ := q
    obtain ⟨m, rfl⟩ : ∃ m, n = m + 1 := ⟨n - 1, by omega⟩
    have hk : isLeafTok k = true := by simpa using (hps (k, v) (by simp)).1
    have hv : isLeafTok v = true := by simpa using (hps (k, v) (by simp)).2
    have hrest : ∀ y ∈ ps', isLeafTok y.1 = true ∧ isLeafTok y.2 = true :=
      fun y hy => hps y (by simp [hy])
    have hm : ps'.length + 1 ≤ m := by simp at hn; omega
    have hkstep := hp k (v :: (pairTokens ps' ++ [.Close '}'])) hk
    have hvstep := hp v (pairTokens ps' ++ [.Close '}']) hv
    have hloop := ih m (pairs ++ [(leafForm k, leafForm v)]) hrest hm
    have hshape : pairTokens ((k, v) :: ps') ++ [Token.Close '}'] =
        k :: v :: (pairTokens ps' ++ [Token.Close '}']) := by
      simp [pairTokens]
    rw [hshape]
    have hmap : (((k, v) :: ps').map fun q => (leafForm q.1, leafForm q.2)) =
        (leafForm k, leafForm v) :: ps'.map fun q => (leafForm q.1, leafForm q.2) := by
      simp
    rw [hmap]
    have hassoc : pairs ++ (leafForm k, leafForm v) ::
          (ps'.map fun q => (leafForm q.1, leafForm q.2)) =
        (pairs ++ [(leafForm k, leafForm v)]) ++
          ps'.map fun q => (leafForm q.1, leafForm q.2) := by
      simp
    rw [hassoc]
    cases k <;>
      first
      | exact Bool.noConfusion hk
      | · simp only [parseMapF, hkstep, hvstep]
          exact hloop

/-! ## Claim C7 -/

/-- C7: the reader fails with the end-of-input structural error on the
tokens of `(1 2`, with the mismatched-bracket structural error on the tokens
of `(1 2]`, and with the unexpected-token structural error on the tokens of
`{:a}` (the odd map entry's value read hits `Close('}')`); in each case an
error, never a form, is returned. -/
theorem C7_structural_errors :
    parse [.Open '(', .Integer 1, .Integer 2] =
      .error ("Unexpected end of input") ∧
    parse [.Open '(', .Integer 1, .Integer 2, .Close ']'] =
      .error ("Unexpected token: `]`, expected `)`") ∧
    parse [.Open '{', .Keyword ("a".toList), .Close '}'] =
      .error ("Unexpected token: " ++ tokenDebug (.Close '}')) := by
  refine ⟨rfl, rfl, rfl⟩

/-! ## Claim C8 -/

/-- C8: `[1 2 3]` reads to `List([Integer 1, Integer 2, Integer 3])`,
`{:a 1 :b 2}` reads to `Map([(Keyword "a", Integer 1), (Keyword "b",
Integer 2)])`, and in general a braced sequence of leaf key/value pairs
reads to a `Map` holding exactly those pairs in insertion order, with no
key-uniqueness constraint (duplicate keys stay as distinct pairs — see the
witness). -/
theorem C8_list_and_map_reads :
    parse [.Open '[', .Integer 1, .Integer 2, .Integer 3, .Close ']'] =
      .ok (.List [.Integer 1, .Integer 2, .Integer 3], []) ∧
    parse [.Open '{', .Keyword ("a".toList), .Integer 1,
           .Keyword ("b".toList), .Integer 2, .Close '}'] =
      .ok (.Map [(.Keyword ("a".toList), .Integer 1),
                 (.Keyword ("b".toList), .Integer 2)], []) ∧
    ∀ (ps : List (Token × Token)),
      (∀ q ∈ ps, isLeafTok q.1 = true ∧ isLeafTok q.2 = true) →
      parse (.Open '{' :: (pairTokens ps ++ [.Close '}'])) =
        .ok (.Map (ps.map fun q => (leafForm q.1, leafForm q.2)), []) := by
  refine ⟨rfl, rfl, ?_⟩
  intro ps hps
  have hlen : (Token.Open '{' :: (pairTokens ps ++ [Token.Close '}'])).length =
      2 * ps.length + 2 := by
    simp [pairTokens_length]
  have hp : ∀ t ts, isLeafTok t = true →
      parseF (4 * ps.length + 4) (t :: ts) = some (.ok (leafForm t, ts)) := by
    intro t ts ht
    have h4 : 4 * ps.length + 4 = (4 * ps.length + 3) + 1 := by omega
    rw [h4]
    exact parseF_leaf _ t ts ht
  have hrun := parseMapF_leaf_run (fun ts => parseF (4 * ps.length + 4) ts) hp
    ps (4 * ps.length + 4) [] hps (by omega)
  have hstep : parseF (2 * (Token.Open '{' :: (pairTokens ps ++ [Token.Close '}'])).length + 1)
      (.Open '{' :: (pairTokens ps ++ [.Close '}'])) =
      some (.ok (.Map (ps.map fun q => (leafForm q.1, leafForm q.2)), [])) := by
    rw [hlen]
    have h5 : 2 * (2 * ps.length + 2) + 1 = (4 * ps.length + 4) + 1 := by omega
    rw [h5]
    simp only [parseF]
    simpa using hrun
  simp only [parse, hstep]

/-- C8, witness: the general part of the theorem applied to a concrete map
with a duplicated key, `{:a 1 :a 2}`: both pairs survive, in insertion
order. -/
theorem C8_witness :
    parse [.Open '{', .Keyword ("a".toList), .Integer 1,
           .Keyword ("a".toList), .Integer 2, .Close '}'] =
      .ok (.Map [(.Keyword ("a".toList), .Integer 1),
                 (.Keyword ("a".toList), .Integer 2)], []) :=
  C8_list_and_map_reads.2.2
    [(.Keyword ("a".toList), .Integer 1), (.Keyword ("a".toList), .Integer 2)]
    (by decide)

/-! ## Claim C9 -/

/-- C9: the reader is a deterministic pure function of the token sequence it
is given: it embeds as a pure function (the Rust `parse` takes its token
iterator by move and touches no other state), so two invocations from equal
starting sequences produce equal outcomes — the same structural error, or
structurally equal forms with equal remainders. -/
theorem C9_reader_deterministic (ts₁ ts₂ : List Token) (h : ts₁ = ts₂) :
    parse ts₁ = parse ts₂ := by
  rw [h]

/-- C9, witness: the determinism theorem applied to a concrete token
sequence. -/
theorem C9_witness :
    parse [Token.Open '(', Token.Integer 1, Token.Close ')'] =
      parse [Token.Open '(', Token.Integer 1, Token.Close ')'] :=
  C9_reader_deterministic _ _ rfl

/-! ## Claim C10 -/

/-- C10: whenever the reader succeeds, the returned remainder is exactly the
input sequence with at least one token removed from the front (`List.drop k`
with `0 < k`): the reader never returns its input unchanged, never reorders
surviving tokens and never fabricates tokens, so looping on the remainder
makes strict progress. -/
theorem C10_reader_progress (ts : List Token) (f : Form) (rest : List Token)
    (h : parse ts = .ok (f, rest)) :
    ∃ k, 0 < k ∧ rest = ts.drop k := by
  unfold parse at h
  cases hq : parseF (2 * ts.length + 1) ts with
  | none => rw [hq] at h; exact absurd h (by simp)
  | some r =>
    rw [hq] at h
    simp only at h
    subst h
    obtain ⟨hsub, hlen⟩ := parseF_progress (2 * ts.length + 1) ts f rest hq
    obtain ⟨pre, hpre⟩ := hsub
    refine ⟨pre.length, ?_, ?_⟩
    · cases pre with
      | nil => simp at hpre; subst hpre; omega
      | cons a l => simp
    · rw [← hpre]
      simp

/-- C10, witness: the progress theorem applied to the single-token sequence
`[Integer 7]`, whose read returns the empty remainder `drop 1`. -/
theorem C10_witness :
    ∃ k, 0 < k ∧ ([] : List Token) = [Token.Integer 7].drop k :=
  C10_reader_progress [Token.Integer 7] (.Integer 7) [] rfl

end Rlispy
